import Mathlib

/-!
Verification of the single-node blockchain ledger (`main.go`).

The Go program keeps a global `blockchain : BlockChain` that is mutated by the
operations `NewBlock`, `NewTransaction`, `resolveConflicts`, and read by
`LastBlock`, `validChain`, `Hash`, `ProofOfWork`, `validProof`.  We embed the
state explicitly: every mutator takes the current `BlockChain` value and
returns the updated one.  Code that can panic (out-of-range indexing on an
empty chain, aborts inside `resolveConflicts`) is embedded with `Option`.
`time.Now().Unix()` is an effect; its result is passed in as an explicit
`now : Int` argument.  SHA-256, Go's `json.Marshal` for the `Block` struct,
`hex.EncodeToString` and `strconv.Itoa` are embedded concretely and
executably below, over `Nat` (words are reduced mod 2 ^ 32 where the Go
library uses 32-bit arithmetic).
-/

set_option maxRecDepth 8000

/-- `Transaction` struct of `main.go`: sender, recipient, amount. -/
structure Transaction where
  Sender : String
  Recipient : String
  Amount : Int
deriving DecidableEq

/-- `Block` struct of `main.go` with its five fields.  Go's `int`/`int64`
fields are embedded as `Int`. -/
structure Block where
  Index : Int
  Timestamp : Int
  Transactions : Transaction
  Proof : Int
  PreviousHash : String
deriving DecidableEq

instance : Inhabited Block := ⟨⟨0, 0, ⟨"", "", 0⟩, 0, ""⟩⟩

/-- `FullChain` struct of `main.go`: the decoded body of a peer's
`GET /chain` response, carrying the chain and its self-reported length. -/
structure FullChain where
  Chain : List Block
  Length : Int
deriving DecidableEq

/-- `BlockChain` struct of `main.go`: the chain, the single pending
transaction slot, and the registered peer addresses. -/
structure BlockChain where
  Chain : List Block
  CurrentTransaction : Transaction
  Nodes : List String
deriving DecidableEq

/-! ### SHA-256 (`crypto/sha256`), over `Nat` with explicit `% 2^32` -/

/-- Reduce to a 32-bit word. -/
def w32 (n : ℕ) : ℕ := n % 4294967296

/-- 32-bit right rotation. -/
def rotr32 (n w : ℕ) : ℕ := ((w >>> n) ||| (w <<< (32 - n))) % 4294967296

/-- SHA-256 message-schedule sigma-0. -/
def schedSig0 (w : ℕ) : ℕ := rotr32 7 w ^^^ rotr32 18 w ^^^ (w >>> 3)

/-- SHA-256 message-schedule sigma-1. -/
def schedSig1 (w : ℕ) : ℕ := rotr32 17 w ^^^ rotr32 19 w ^^^ (w >>> 10)

/-- SHA-256 round Sigma-0. -/
def roundSig0 (w : ℕ) : ℕ := rotr32 2 w ^^^ rotr32 13 w ^^^ rotr32 22 w

/-- SHA-256 round Sigma-1. -/
def roundSig1 (w : ℕ) : ℕ := rotr32 6 w ^^^ rotr32 11 w ^^^ rotr32 25 w

/-- SHA-256 choice function (the complement is taken within 32 bits). -/
def chf (x y z : ℕ) : ℕ := (x &&& y) ^^^ ((x ^^^ 4294967295) &&& z)

/-- SHA-256 majority function. -/
def majf (x y z : ℕ) : ℕ := (x &&& y) ^^^ (x &&& z) ^^^ (y &&& z)

/-- The 64 SHA-256 round constants (FIPS 180-4), written in decimal. -/
def kConsts : List ℕ :=
  [1116352408, 1899447441, 3049323471, 3921009573, 961987163, 1508970993,
   2453635748, 2870763221, 3624381080, 310598401, 607225278, 1426881987,
   1925078388, 2162078206, 2614888103, 3248222580, 3835390401, 4022224774,
   264347078, 604807628, 770255983, 1249150122, 1555081692, 1996064986,
   2554220882, 2821834349, 2952996808, 3210313671, 3336571891, 3584528711,
   113926993, 338241895, 666307205, 773529912, 1294757372, 1396182291,
   1695183700, 1986661051, 2177026350, 2456956037, 2730485921, 2820302411,
   3259730800, 3345764771, 3516065817, 3600352804, 4094571909, 275423344,
   430227734, 506948616, 659060556, 883997877, 958139571, 1322822218,
   1537002063, 1747873779, 1955562222, 2024104815, 2227730452, 2361852424,
   2428436474, 2756734187, 3204031479, 3329325298]

/-- The initial SHA-256 hash value (FIPS 180-4), written in decimal. -/
def initH : List ℕ :=
  [1779033703, 3144134277, 1013904242, 2773480762,
   1359893119, 2600822924, 528734635, 1541459225]

/-- Big-endian bytes of a natural number, fixed width `k`. -/
def natToBytesBE : ℕ → ℕ → List ℕ
  | 0, _ => []
  | k + 1, n => natToBytesBE k (n / 256) ++ [n % 256]

/-- SHA-256 padding: append `0x80`, zeros until the length is 56 mod 64,
then the bit length as 8 big-endian bytes.  The zero count is
`(55 + 64 - msg.length % 64) % 64`; since `msg.length % 64 ≤ 63` the
subtraction never truncates, so this is correct for every residue,
including lengths that are 56–63 mod 64. -/
def padBytes (msg : List ℕ) : List ℕ :=
  msg ++ 0x80 :: List.replicate ((55 + 64 - msg.length % 64) % 64) 0
      ++ natToBytesBE 8 (msg.length * 8)

/-- Split a byte list into 64-byte chunks (fuel-based structural recursion;
the fuel `l.length` always suffices since each chunk consumes at least one
byte). -/
def chunk64Aux : ℕ → List ℕ → List (List ℕ)
  | 0, _ => []
  | _ + 1, [] => []
  | n + 1, x :: xs => (x :: xs).take 64 :: chunk64Aux n ((x :: xs).drop 64)

/-- Split a byte list into 64-byte chunks. -/
def chunk64 (l : List ℕ) : List (List ℕ) := chunk64Aux l.length l

/-- Group bytes into 32-bit big-endian words. -/
def bytesToWords : List ℕ → List ℕ
  | b0 :: b1 :: b2 :: b3 :: rest =>
      ((b0 <<< 24) ||| (b1 <<< 16) ||| (b2 <<< 8) ||| b3) :: bytesToWords rest
  | _ => []

/-- Extend the 16-word message schedule by `n` further words.  The
accumulator is kept reversed: its head is the most recent word, so
`w[t-2]`, `w[t-7]`, `w[t-15]`, `w[t-16]` are at positions 1, 6, 14, 15. -/
def extendSchedule : ℕ → List ℕ → List ℕ
  | 0, acc => acc
  | n + 1, acc =>
      extendSchedule n
        (w32 (acc.getD 15 0 + schedSig0 (acc.getD 14 0) + acc.getD 6 0 + schedSig1 (acc.getD 1 0)) :: acc)

/-- The full 64-word message schedule of one block. -/
def sched (block16 : List ℕ) : List ℕ := (extendSchedule 48 block16.reverse).reverse

/-- Working variables of the SHA-256 compression loop. -/
structure WorkVars where
  a : ℕ
  b : ℕ
  c : ℕ
  d : ℕ
  e : ℕ
  f : ℕ
  g : ℕ
  h : ℕ

/-- One round of the SHA-256 compression loop; `kw` is the pair of round
constant and schedule word. -/
def shaRound (st : WorkVars) (kw : ℕ × ℕ) : WorkVars :=
  let t1 := st.h + roundSig1 st.e + chf st.e st.f st.g + kw.1 + kw.2
  let t2 := roundSig0 st.a + majf st.a st.b st.c
  ⟨w32 (t1 + t2), st.a, st.b, st.c, w32 (st.d + t1), st.e, st.f, st.g⟩

/-- Compress one 16-word block into the running 8-word state. -/
def compress (st : List ℕ) (block16 : List ℕ) : List ℕ :=
  let ws := sched block16
  let v0 : WorkVars :=
    ⟨st.getD 0 0, st.getD 1 0, st.getD 2 0, st.getD 3 0,
     st.getD 4 0, st.getD 5 0, st.getD 6 0, st.getD 7 0⟩
  let fin := (kConsts.zip ws).foldl shaRound v0
  [w32 (st.getD 0 0 + fin.a), w32 (st.getD 1 0 + fin.b), w32 (st.getD 2 0 + fin.c),
   w32 (st.getD 3 0 + fin.d), w32 (st.getD 4 0 + fin.e), w32 (st.getD 5 0 + fin.f),
   w32 (st.getD 6 0 + fin.g), w32 (st.getD 7 0 + fin.h)]

/-- Process one 64-byte chunk. -/
def compressChunk (st : List ℕ) (chunk : List ℕ) : List ℕ := compress st (bytesToWords chunk)

/-- SHA-256 digest of a byte list, as the list of its eight 32-bit words. -/
def sha256Words (msg : List ℕ) : List ℕ := (chunk64 (padBytes msg)).foldl compressChunk initH

/-! ### Strings, hex and decimal encodings, UTF-8, JSON (`encoding/json`, `encoding/hex`, `strconv`) -/

/-- Decimal digit characters. -/
def digitChar : ℕ → Char
  | 0 => '0' | 1 => '1' | 2 => '2' | 3 => '3' | 4 => '4'
  | 5 => '5' | 6 => '6' | 7 => '7' | 8 => '8' | _ => '9'

/-- Lowercase hexadecimal digit characters (as produced by
`hex.EncodeToString`). -/
def hexDigit : ℕ → Char
  | 0 => '0' | 1 => '1' | 2 => '2' | 3 => '3' | 4 => '4'
  | 5 => '5' | 6 => '6' | 7 => '7' | 8 => '8' | 9 => '9'
  | 10 => 'a' | 11 => 'b' | 12 => 'c' | 13 => 'd' | 14 => 'e' | _ => 'f'

/-- Decimal digits of a natural number, most significant first (fuel-based;
`natDigitsAux (n+1) n` always has enough fuel). -/
def natDigitsAux : ℕ → ℕ → List Char
  | 0, _ => []
  | fuel + 1, n => if n < 10 then [digitChar n] else natDigitsAux fuel (n / 10) ++ [digitChar (n % 10)]

/-- Decimal string of a natural number. -/
def natStr (n : ℕ) : String := ⟨natDigitsAux (n + 1) n⟩

/-- Decimal string of an integer, as produced by `strconv.Itoa` and by the
JSON encoder for Go `int`/`int64` values. -/
def intStr : Int → String
  | Int.ofNat n => natStr n
  | Int.negSucc n => "-" ++ natStr (n + 1)

/-- UTF-8 encoding of one character. -/
def utf8Bytes (c : Char) : List ℕ :=
  let n := c.toNat
  if n < 0x80 then [n]
  else if n < 0x800 then [0xc0 ||| (n >>> 6), 0x80 ||| (n &&& 0x3f)]
  else if n < 0x10000 then
    [0xe0 ||| (n >>> 12), 0x80 ||| ((n >>> 6) &&& 0x3f), 0x80 ||| (n &&& 0x3f)]
  else
    [0xf0 ||| (n >>> 18), 0x80 ||| ((n >>> 12) &&& 0x3f),
     0x80 ||| ((n >>> 6) &&& 0x3f), 0x80 ||| (n &&& 0x3f)]

/-- UTF-8 bytes of a string (Go's `[]byte(s)` conversion). -/
def strBytes (s : String) : List ℕ := (s.data.map utf8Bytes).flatten

/-- JSON escaping of one character, as done by Go's `encoding/json` string
encoder with its default HTML escaping: `"`, `\`, newline, carriage return,
tab, other control characters, `<`, `>`, `&`, U+2028 and U+2029 are escaped,
everything else is written verbatim. -/
def escapeChar (c : Char) : List Char :=
  if c = '"' then ['\\', '"']
  else if c = '\\' then ['\\', '\\']
  else if c = '\n' then ['\\', 'n']
  else if c = '\r' then ['\\', 'r']
  else if c = '\t' then ['\\', 't']
  else if c.toNat < 0x20 then
    ['\\', 'u', '0', '0', hexDigit ((c.toNat >>> 4) &&& 15), hexDigit (c.toNat &&& 15)]
  else if c = '<' then ['\\', 'u', '0', '0', '3', 'c']
  else if c = '>' then ['\\', 'u', '0', '0', '3', 'e']
  else if c = '&' then ['\\', 'u', '0', '0', '2', '6']
  else if c.toNat = 0x2028 then ['\\', 'u', '2', '0', '2', '8']
  else if c.toNat = 0x2029 then ['\\', 'u', '2', '0', '2', '9']
  else [c]

/-- JSON escaping of a string body. -/
def jsonEscape (s : String) : String := ⟨(s.data.map escapeChar).flatten⟩

/-- Go `json.Marshal` of a `Transaction` value (field order and names as in
the struct declaration; no tags, so the Go field names are used). -/
def jsonTransaction (t : Transaction) : String :=
  "\x7b\"Sender\":\"" ++ jsonEscape t.Sender ++ "\",\"Recipient\":\"" ++ jsonEscape t.Recipient
    ++ "\",\"Amount\":" ++ intStr t.Amount ++ "\x7d"

/-- Go `json.Marshal` of a `Block` value, using the struct's JSON tags
`index`, `timestamp`, `transactions`, `proof`, `previous_hash` in
declaration order. -/
def jsonBlock (b : Block) : String :=
  "\x7b\"index\":" ++ intStr b.Index ++ ",\"timestamp\":" ++ intStr b.Timestamp
    ++ ",\"transactions\":" ++ jsonTransaction b.Transactions
    ++ ",\"proof\":" ++ intStr b.Proof
    ++ ",\"previous_hash\":\"" ++ jsonEscape b.PreviousHash ++ "\"\x7d"

/-- The eight hexadecimal characters of one 32-bit word, most significant
nibble first (matching `hex.EncodeToString` on the big-endian digest). -/
def wordHex (w : ℕ) : List Char :=
  [hexDigit ((w >>> 28) &&& 15), hexDigit ((w >>> 24) &&& 15),
   hexDigit ((w >>> 20) &&& 15), hexDigit ((w >>> 16) &&& 15),
   hexDigit ((w >>> 12) &&& 15), hexDigit ((w >>> 8) &&& 15),
   hexDigit ((w >>> 4) &&& 15), hexDigit (w &&& 15)]

/-- Hex encoding of a word-list digest. -/
def hexOfWords (ws : List ℕ) : String := ⟨(ws.map wordHex).flatten⟩

/-- `BlockChain.Hash` of `main.go`: hex of the SHA-256 of the JSON
marshalling of a block. -/
def BlockChain.Hash (block : Block) : String :=
  hexOfWords (sha256Words (strBytes (jsonBlock block)))

/-! ### Ledger operations (`main.go`, methods on `BlockChain`) -/

/-- `BlockChain.NewBlock` of `main.go`: choose the previous hash (the
explicit argument when non-empty, else the hash of the chain's last block —
which panics on an empty chain, embedded as `none`), build the block with
`index = len(chain)+1`, the current timestamp, the pending transaction and
the given proof, clear the pending transaction, append the block, and
return it. -/
def BlockChain.NewBlock (bc : BlockChain) (PreviousHash : String) (proof : Int) (now : Int) :
    Option (BlockChain × Block) :=
  match (if PreviousHash ≠ "" then some PreviousHash else bc.Chain.getLast?.map BlockChain.Hash) with
  | none => none
  | some pg =>
      let block : Block :=
        ⟨(bc.Chain.length : Int) + 1, now, bc.CurrentTransaction, proof, pg⟩
      some (⟨bc.Chain ++ [block], ⟨"", "", 0⟩, bc.Nodes⟩, block)

/-- `BlockChain.init` of `main.go`: reset to the zero value, then create the
genesis block with previous hash `"1"` and proof `100`.  The `none` branch
of `NewBlock` is unreachable here because the explicit previous hash is
non-empty. -/
def initLedger (now : Int) : BlockChain :=
  match BlockChain.NewBlock ⟨[], ⟨"", "", 0⟩, []⟩ "1" 100 now with
  | some (bc, _) => bc
  | none => ⟨[], ⟨"", "", 0⟩, []⟩

/-- `BlockChain.LastBlock` of `main.go`: the chain's final element
(panics, i.e. `none`, on an empty chain). -/
def BlockChain.LastBlock (bc : BlockChain) : Option Block := bc.Chain.getLast?

/-- `BlockChain.NewTransaction` of `main.go`: overwrite the pending
transaction slot and return `LastBlock().Index + 1` (panics, i.e. `none`,
on an empty chain). -/
def BlockChain.NewTransaction (bc : BlockChain) (sender recipient : String) (amount : Int) :
    Option (BlockChain × Int) :=
  match bc.Chain.getLast? with
  | none => none
  | some l => some (⟨bc.Chain, ⟨sender, recipient, amount⟩, bc.Nodes⟩, l.Index + 1)

/-- `BlockChain.validProof` of `main.go`: concatenate the decimal strings of
the two proofs, SHA-256 the bytes, hex-encode, and test whether the first
four hex characters are `"0000"`.  The candidate proof is a natural number
since `ProofOfWork` only ever produces candidates `0, 1, 2, …`. -/
def BlockChain.validProof (lastProof : Int) (proof : ℕ) : Bool :=
  (hexOfWords (sha256Words (strBytes (intStr lastProof ++ natStr proof)))).take 4 == "0000"

/-- `BlockChain.ProofOfWork` of `main.go`: starting from 0 and incrementing,
return the first candidate satisfying `validProof`.  The Go loop is
unbounded; it terminates exactly when some valid candidate exists, so the
embedding takes that existence as a hypothesis and returns the least
witness, which is what the loop computes. -/
def BlockChain.ProofOfWork (lastProof : Int)
    (ex : ∃ p, BlockChain.validProof lastProof p = true) : ℕ :=
  Nat.find ex

/-- The loop of `BlockChain.validChain` of `main.go`: `lastBlock` is the
block at `currentIndex - 1`, `rest` the blocks from `currentIndex` on;
return `false` on the first block whose `PreviousHash` differs from the
hash of its predecessor. -/
def validChainLoop (lastBlock : Block) : List Block → Bool
  | [] => true
  | block :: rest =>
      if block.PreviousHash ≠ BlockChain.Hash lastBlock then false
      else validChainLoop block rest

/-- `BlockChain.validChain` of `main.go`: reads `chain[0]` unconditionally
(panicking, i.e. `none`, on an empty chain), then walks the chain from
index 1 checking each hash link. -/
def BlockChain.validChainOpt : List Block → Option Bool
  | [] => none
  | first :: rest => some (validChainLoop first rest)

/-- The loop of `BlockChain.resolveConflicts` of `main.go` over the decoded
peer responses: a peer chain is adopted when its reported length is
strictly greater than the running `maxLength` and it passes `validChain`
(whose panic on an empty chain propagates as `none`; note the Go `&&`
short-circuits, so `validChain` only runs on peers whose reported length
beats the running maximum). -/
def resolveLoop (maxLength : Int) (newChain : List Block) :
    List FullChain → Option (Int × List Block)
  | [] => some (maxLength, newChain)
  | fc :: rest =>
      if fc.Length > maxLength then
        match BlockChain.validChainOpt fc.Chain with
        | none => none
        | some true => resolveLoop fc.Length fc.Chain rest
        | some false => resolveLoop maxLength newChain rest
      else resolveLoop maxLength newChain rest

/-- `BlockChain.resolveConflicts` of `main.go`, with the HTTP layer
abstracted away: the decoded `FullChain` bodies of the peers' `/chain`
responses are passed in as a list.  `maxLength` starts at the local chain's
element count; after the scan, the local chain is replaced iff some peer
chain was adopted. -/
def BlockChain.resolveConflicts (bc : BlockChain) (responses : List FullChain) :
    Option (Bool × BlockChain) :=
  match resolveLoop (bc.Chain.length : Int) [] responses with
  | none => none
  | some (_, newChain) =>
      if newChain ≠ [] then some (true, ⟨newChain, bc.CurrentTransaction, bc.Nodes⟩)
      else some (false, bc)

/-! ### Operation sequences on the ledger -/

/-- One ledger append operation: a `NewBlock` call (with its explicit
previous-hash argument and the timestamp the clock will return) or a
`NewTransaction` call. -/
inductive LedgerOp where
  | newBlock (previousHash : String) (proof : Int) (now : Int)
  | newTransfer (sender recipient : String) (amount : Int)

/-- Apply one ledger operation to a ledger state. -/
def applyOp (bc : BlockChain) : LedgerOp → Option BlockChain
  | LedgerOp.newBlock ph proof now => (bc.NewBlock ph proof now).map Prod.fst
  | LedgerOp.newTransfer s r a => (bc.NewTransaction s r a).map Prod.fst

/-- Apply a sequence of ledger operations in order. -/
def applyOps (bc : BlockChain) : List LedgerOp → Option BlockChain
  | [] => some bc
  | op :: ops =>
      match applyOp bc op with
      | none => none
      | some bc' => applyOps bc' ops

/-- A `newBlock` operation that lets the ledger derive the previous hash
from the chain's last block (the empty explicit argument), as the mining
handler does. -/
def derivesPrevHash : LedgerOp → Prop
  | LedgerOp.newBlock ph _ _ => ph = ""
  | LedgerOp.newTransfer _ _ _ => True

/-! ### The hash-link predicate -/

/-- Every block from index 1 on carries the hash of its predecessor. -/
def chainLinked (c : List Block) : Prop :=
  ∀ i, (h : i + 1 < c.length) →
    (c.get ⟨i + 1, h⟩).PreviousHash = BlockChain.Hash (c.get ⟨i, by omega⟩)

/-! ### Helper lemmas about the hash-link predicate and `validChain` -/

lemma chainLinked_nil : chainLinked [] := by
  intro i h
  simp at h

lemma chainLinked_singleton (b : Block) : chainLinked [b] := by
  intro i h
  simp at h

lemma chainLinked_cons_cons (x y : Block) (t : List Block) :
    chainLinked (x :: y :: t) ↔
      y.PreviousHash = BlockChain.Hash x ∧ chainLinked (y :: t) := by
  constructor
  · intro h
    refine ⟨h 0 (by simp), ?_⟩
    intro i hi
    have hstep := h (i + 1) (by simp only [List.length_cons] at hi ⊢; omega)
    simpa using hstep
  · rintro ⟨h0, h1⟩ i hi
    cases i with
    | zero => simpa using h0
    | succ j =>
        have hstep := h1 j (by simp only [List.length_cons] at hi ⊢; omega)
        simpa using hstep

lemma validChainLoop_iff_linked (lastBlock : Block) (rest : List Block) :
    validChainLoop lastBlock rest = true ↔ chainLinked (lastBlock :: rest) := by
  induction rest generalizing lastBlock with
  | nil =>
      simpa [validChainLoop] using chainLinked_singleton lastBlock
  | cons r rs ih =>
      simp only [validChainLoop]
      by_cases h : r.PreviousHash = BlockChain.Hash lastBlock
      · rw [if_neg (by simp [h]), chainLinked_cons_cons]
        simp [h, ih r]
      · rw [if_pos (by simp [h]), chainLinked_cons_cons]
        simp [h]

lemma validChainOpt_some_true_iff (c : List Block) (h : c ≠ []) :
    BlockChain.validChainOpt c = some true ↔ chainLinked c := by
  cases c with
  | nil => exact absurd rfl h
  | cons first rest =>
      simp only [BlockChain.validChainOpt, Option.some.injEq]
      exact validChainLoop_iff_linked first rest

lemma validChainOpt_isSome (c : List Block) (h : c ≠ []) :
    (BlockChain.validChainOpt c).isSome = true := by
  cases c with
  | nil => exact absurd rfl h
  | cons first rest => rfl

lemma validChainOpt_ne_nil (c : List Block) (b : Bool)
    (h : BlockChain.validChainOpt c = some b) : c ≠ [] := by
  intro he
  subst he
  simp [BlockChain.validChainOpt] at h

lemma validChainLoop_concat (lastBlock : Block) (rest : List Block) (b : Block) :
    validChainLoop lastBlock (rest ++ [b]) = true ↔
      validChainLoop lastBlock rest = true ∧
        b.PreviousHash = BlockChain.Hash ((lastBlock :: rest).getLast (by simp)) := by
  induction rest generalizing lastBlock with
  | nil =>
      simp only [List.nil_append, validChainLoop, List.getLast_singleton]
      by_cases h : b.PreviousHash = BlockChain.Hash lastBlock
      · simp [h]
      · simp [h]
  | cons r rs ih =>
      simp only [List.cons_append, validChainLoop, List.append_eq]
      by_cases h : r.PreviousHash = BlockChain.Hash lastBlock
      · rw [if_neg (by simp [h]), if_neg (by simp [h]), ih r]
        have hg : (lastBlock :: r :: rs).getLast (by simp) = (r :: rs).getLast (by simp) :=
          List.getLast_cons (by simp)
        rw [hg]
      · rw [if_pos (by simp [h]), if_pos (by simp [h])]
        simp

/-! ### Helper lemmas about the ledger operations -/

/-- A ledger state whose chain is non-empty and passes `validChain`. -/
def GoodChain (bc : BlockChain) : Prop :=
  bc.Chain ≠ [] ∧ BlockChain.validChainOpt bc.Chain = some true

lemma goodChain_newBlock (bc : BlockChain) (proof now : Int) (bc' : BlockChain) (blk : Block)
    (hg : GoodChain bc) (h : bc.NewBlock "" proof now = some (bc', blk)) : GoodChain bc' := by
  obtain ⟨hne, hv⟩ := hg
  rw [BlockChain.NewBlock, if_neg (by simp)] at h
  cases hl : bc.Chain.getLast? with
  | none => rw [hl] at h; simp at h
  | some l =>
      rw [hl] at h
      simp only [Option.map_some', Option.some.injEq, Prod.mk.injEq] at h
      obtain ⟨hbc', _⟩ := h
      subst hbc'
      refine ⟨by simp, ?_⟩
      cases hc : bc.Chain with
      | nil => rw [hc] at hl; simp at hl
      | cons first rest =>
          rw [hc] at hl hv
          have hlast : l = (first :: rest).getLast (by simp) := by
            rw [List.getLast?_eq_getLast_of_ne_nil (by simp : first :: rest ≠ [])] at hl
            exact (Option.some.injEq _ _ ▸ hl).symm
          simp only [List.cons_append, BlockChain.validChainOpt, Option.some.injEq]
          rw [validChainLoop_concat]
          refine ⟨?_, by rw [hlast]⟩
          simpa [BlockChain.validChainOpt] using hv

lemma goodChain_applyOp (bc bc' : BlockChain) (op : LedgerOp) (hop : derivesPrevHash op)
    (hg : GoodChain bc) (h : applyOp bc op = some bc') : GoodChain bc' := by
  cases op with
  | newTransfer s r a =>
      obtain ⟨hne, hv⟩ := hg
      rw [applyOp, BlockChain.NewTransaction, List.getLast?_eq_getLast_of_ne_nil hne] at h
      simp only [Option.map_some', Option.some.injEq] at h
      subst h
      exact ⟨hne, hv⟩
  | newBlock ph proof now =>
      have hph : ph = "" := hop
      subst hph
      rw [applyOp] at h
      cases hnb : bc.NewBlock "" proof now with
      | none => rw [hnb] at h; simp at h
      | some p =>
          rw [hnb] at h
          simp only [Option.map_some', Option.some.injEq] at h
          subst h
          exact goodChain_newBlock bc proof now p.1 p.2 hg hnb

lemma goodChain_applyOps (ops : List LedgerOp) :
    ∀ bc, GoodChain bc → (∀ op ∈ ops, derivesPrevHash op) →
      ∀ bc', applyOps bc ops = some bc' → GoodChain bc' := by
  induction ops with
  | nil =>
      intro bc hg _ bc' h
      simp only [applyOps, Option.some.injEq] at h
      subst h
      exact hg
  | cons op ops ih =>
      intro bc hg hops bc' h
      rw [applyOps] at h
      cases ha : applyOp bc op with
      | none => rw [ha] at h; simp at h
      | some bcMid =>
          rw [ha] at h
          exact ih bcMid
            (goodChain_applyOp bc bcMid op (hops op (by simp)) hg ha)
            (fun o ho => hops o (by simp [ho])) bc' h

lemma goodChain_init (now : Int) : GoodChain (initLedger now) :=
  ⟨by exact List.cons_ne_nil _ _, rfl⟩

/-! ### Helper lemmas about `resolveConflicts` -/

lemma resolveLoop_char (rs : List FullChain) :
    ∀ (m : Int) (nc : List Block) (r : Int × List Block),
      resolveLoop m nc rs = some r →
        (r = (m, nc) ∧ ∀ fc ∈ rs, ¬(fc.Length > m ∧ BlockChain.validChainOpt fc.Chain = some true))
        ∨ ∃ fc ∈ rs, r.2 = fc.Chain ∧ fc.Length > m
            ∧ BlockChain.validChainOpt fc.Chain = some true := by
  induction rs with
  | nil =>
      intro m nc r h
      simp only [resolveLoop, Option.some.injEq] at h
      exact Or.inl ⟨h.symm, by simp⟩
  | cons fc rest ih =>
      intro m nc r h
      rw [resolveLoop] at h
      by_cases hlen : fc.Length > m
      · rw [if_pos hlen] at h
        cases hv : BlockChain.validChainOpt fc.Chain with
        | none => rw [hv] at h; exact absurd h (by simp)
        | some b =>
            cases b with
            | true =>
                rw [hv] at h
                rcases ih fc.Length fc.Chain r h with ⟨hr, _⟩ | ⟨fc', hmem, hchain, hgt, hvalid⟩
                · exact Or.inr ⟨fc, by simp, by simp [hr], hlen, hv⟩
                · exact Or.inr ⟨fc', by simp [hmem], hchain, lt_trans hlen hgt, hvalid⟩
            | false =>
                rw [hv] at h
                rcases ih m nc r h with ⟨hr, hall⟩ | ⟨fc', hmem, hchain, hgt, hvalid⟩
                · refine Or.inl ⟨hr, ?_⟩
                  intro fc'' hmem''
                  rcases List.mem_cons.1 hmem'' with he | ht
                  · subst he
                    rintro ⟨_, hvt⟩
                    rw [hv] at hvt
                    simp at hvt
                  · exact hall fc'' ht
                · exact Or.inr ⟨fc', by simp [hmem], hchain, hgt, hvalid⟩
      · rw [if_neg hlen] at h
        rcases ih m nc r h with ⟨hr, hall⟩ | ⟨fc', hmem, hchain, hgt, hvalid⟩
        · refine Or.inl ⟨hr, ?_⟩
          intro fc'' hmem''
          rcases List.mem_cons.1 hmem'' with he | ht
          · subst he
            rintro ⟨hgt', _⟩
            exact hlen hgt'
          · exact hall fc'' ht
        · exact Or.inr ⟨fc', by simp [hmem], hchain, hgt, hvalid⟩

lemma NewBlock_transactions (bc : BlockChain) (ph : String) (proof now : Int)
    (bc' : BlockChain) (blk : Block) (h : bc.NewBlock ph proof now = some (bc', blk)) :
    blk.Transactions = bc.CurrentTransaction := by
  rw [BlockChain.NewBlock] at h
  cases hm : (if ph ≠ "" then some ph else bc.Chain.getLast?.map BlockChain.Hash) with
  | none => rw [hm] at h; simp at h
  | some pg =>
      rw [hm] at h
      simp only [Option.some.injEq, Prod.mk.injEq] at h
      rw [← h.2]

/-! ### Claims -/

/-- Claim C7: a freshly initialized ledger has a chain of exactly one block
with index 1, previous hash the literal string `"1"` and proof 100, and an
empty pending transfer record. -/
theorem init_genesis (now : Int) :
    (initLedger now).Chain = [⟨1, now, ⟨"", "", 0⟩, 100, "1"⟩]
      ∧ (initLedger now).CurrentTransaction = ⟨"", "", 0⟩ :=
  ⟨rfl, rfl⟩

/-- Claim C3 (amended to non-empty candidate chains): `validChain` walks the
chain from index 1, comparing each block's `PreviousHash` with the hash of
its predecessor; it returns a boolean, which is `true` exactly when every
link holds (so `false` exactly when some link is broken), and `true` for
every single-block chain.  It is a pure function of the candidate chain. -/
theorem validChain_spec (c : List Block) (h : c ≠ []) :
    (BlockChain.validChainOpt c = some true ↔ chainLinked c)
      ∧ (BlockChain.validChainOpt c).isSome = true
      ∧ (c.length = 1 → BlockChain.validChainOpt c = some true) := by
  refine ⟨validChainOpt_some_true_iff c h, validChainOpt_isSome c h, ?_⟩
  intro h1
  refine (validChainOpt_some_true_iff c h).2 ?_
  intro i hi
  rw [h1] at hi
  omega

/-- Claim C3 witness: the amended theorem applied to a concrete single-block
chain. -/
theorem validChain_spec_witness :
    ([(⟨0, 0, ⟨"", "", 0⟩, 0, ""⟩ : Block)] ≠ [])
      ∧ ((BlockChain.validChainOpt [(⟨0, 0, ⟨"", "", 0⟩, 0, ""⟩ : Block)] = some true
            ↔ chainLinked [(⟨0, 0, ⟨"", "", 0⟩, 0, ""⟩ : Block)])
        ∧ (BlockChain.validChainOpt [(⟨0, 0, ⟨"", "", 0⟩, 0, ""⟩ : Block)]).isSome = true
        ∧ ([(⟨0, 0, ⟨"", "", 0⟩, 0, ""⟩ : Block)].length = 1 →
            BlockChain.validChainOpt [(⟨0, 0, ⟨"", "", 0⟩, 0, ""⟩ : Block)] = some true)) :=
  ⟨by decide, validChain_spec [⟨0, 0, ⟨"", "", 0⟩, 0, ""⟩] (by decide)⟩

/-- Claim C3 counterexample: on the empty candidate chain `validChain`
returns no boolean at all — the Go code reads `chain[0]` and panics —
although every hash link of the empty chain vacuously holds, so the claimed
"true when every link holds" fails there. -/
theorem validChain_empty_cex :
    BlockChain.validChainOpt [] = none ∧ chainLinked [] :=
  ⟨rfl, chainLinked_nil⟩

/-- Claim C6: on a ledger with a non-empty chain, `NewBlock` uses the
explicit previous hash when non-empty and the hash of the last block
otherwise, builds the block with index `len(chain)+1`, the given timestamp,
the pending transfer and the given proof, appends exactly that block,
clears the pending transfer and returns the block. -/
theorem NewBlock_spec (bc : BlockChain) (ph : String) (proof now : Int) (h : bc.Chain ≠ []) :
    ∃ bc' blk, bc.NewBlock ph proof now = some (bc', blk)
      ∧ (ph ≠ "" → blk.PreviousHash = ph)
      ∧ (ph = "" → blk.PreviousHash = BlockChain.Hash (bc.Chain.getLast h))
      ∧ blk.Index = (bc.Chain.length : Int) + 1
      ∧ blk.Timestamp = now
      ∧ blk.Transactions = bc.CurrentTransaction
      ∧ blk.Proof = proof
      ∧ bc'.Chain = bc.Chain ++ [blk]
      ∧ bc'.CurrentTransaction = ⟨"", "", 0⟩
      ∧ bc'.Nodes = bc.Nodes := by
  by_cases hph : ph = ""
  · subst hph
    rw [BlockChain.NewBlock, if_neg (by simp), List.getLast?_eq_getLast_of_ne_nil h,
      Option.map_some']
    exact ⟨_, _, rfl, fun hc => absurd rfl hc, fun _ => rfl, rfl, rfl, rfl, rfl, rfl, rfl, rfl⟩
  · rw [BlockChain.NewBlock, if_pos hph]
    exact ⟨_, _, rfl, fun _ => rfl, fun he => absurd he hph, rfl, rfl, rfl, rfl, rfl, rfl, rfl⟩

/-- Claim C6 witness: the theorem applied to the freshly initialized ledger
with a non-empty explicit previous hash. -/
theorem NewBlock_spec_witness :
    (initLedger 0).Chain ≠ []
      ∧ (∃ bc' blk, (initLedger 0).NewBlock "abc" 7 1 = some (bc', blk)
        ∧ ("abc" ≠ "" → blk.PreviousHash = "abc")
        ∧ ("abc" = "" → blk.PreviousHash =
            BlockChain.Hash ((initLedger 0).Chain.getLast (by decide)))
        ∧ blk.Index = ((initLedger 0).Chain.length : Int) + 1
        ∧ blk.Timestamp = 1
        ∧ blk.Transactions = (initLedger 0).CurrentTransaction
        ∧ blk.Proof = 7
        ∧ bc'.Chain = (initLedger 0).Chain ++ [blk]
        ∧ bc'.CurrentTransaction = ⟨"", "", 0⟩
        ∧ bc'.Nodes = (initLedger 0).Nodes) :=
  ⟨by decide, NewBlock_spec (initLedger 0) "abc" 7 1 (by decide)⟩

/-- Claim C8: on a ledger with a non-empty chain, `NewTransaction`
unconditionally overwrites the pending transfer slot with the given record,
returns `last_block.Index + 1`, and leaves the chain unchanged; a second
call before any `NewBlock` keeps only the second record, and that record is
the one carried by the next mined block.  No field is validated. -/
theorem NewTransaction_spec (bc : BlockChain) (s r : String) (a : Int) (h : bc.Chain ≠ []) :
    ∃ bc₁ i, bc.NewTransaction s r a = some (bc₁, i)
      ∧ bc₁.CurrentTransaction = ⟨s, r, a⟩
      ∧ bc₁.Chain = bc.Chain
      ∧ bc₁.Nodes = bc.Nodes
      ∧ i = (bc.Chain.getLast h).Index + 1
      ∧ ∀ s' r' a', ∃ bc₂ i₂, bc₁.NewTransaction s' r' a' = some (bc₂, i₂)
          ∧ bc₂.CurrentTransaction = ⟨s', r', a'⟩
          ∧ bc₂.Chain = bc.Chain
          ∧ ∀ ph proof now bc₃ blk, bc₂.NewBlock ph proof now = some (bc₃, blk) →
              blk.Transactions = ⟨s', r', a'⟩ := by
  rw [BlockChain.NewTransaction, List.getLast?_eq_getLast_of_ne_nil h]
  refine ⟨_, _, rfl, rfl, rfl, rfl, rfl, ?_⟩
  intro s' r' a'
  rw [BlockChain.NewTransaction]
  simp only
  rw [List.getLast?_eq_getLast_of_ne_nil h]
  exact ⟨_, _, rfl, rfl, rfl, fun ph proof now bc₃ blk hnb =>
    NewBlock_transactions _ ph proof now bc₃ blk hnb⟩

/-- Claim C8 witness: the theorem applied to the freshly initialized
ledger. -/
theorem NewTransaction_spec_witness :
    (initLedger 0).Chain ≠ []
      ∧ (∃ bc₁ i, (initLedger 0).NewTransaction "alice" "bob" 5 = some (bc₁, i)
        ∧ bc₁.CurrentTransaction = ⟨"alice", "bob", 5⟩
        ∧ bc₁.Chain = (initLedger 0).Chain
        ∧ bc₁.Nodes = (initLedger 0).Nodes
        ∧ i = ((initLedger 0).Chain.getLast (by decide)).Index + 1
        ∧ ∀ s' r' a', ∃ bc₂ i₂, bc₁.NewTransaction s' r' a' = some (bc₂, i₂)
            ∧ bc₂.CurrentTransaction = ⟨s', r', a'⟩
            ∧ bc₂.Chain = (initLedger 0).Chain
            ∧ ∀ ph proof now bc₃ blk, bc₂.NewBlock ph proof now = some (bc₃, blk) →
                blk.Transactions = ⟨s', r', a'⟩) :=
  ⟨by decide, NewTransaction_spec (initLedger 0) "alice" "bob" 5 (by decide)⟩

/-- Claim C2: `ProofOfWork` returns the smallest non-negative candidate
satisfying `validProof` (concatenate the decimal strings, SHA-256 the UTF-8
bytes, hex-encode, first four hex characters all `'0'`); in particular the
returned proof is valid.  The hypothesis is exactly the condition under
which the Go search loop terminates. -/
theorem ProofOfWork_spec (lastProof : Int)
    (ex : ∃ p, BlockChain.validProof lastProof p = true) :
    BlockChain.validProof lastProof (BlockChain.ProofOfWork lastProof ex) = true
      ∧ ∀ q, BlockChain.validProof lastProof q = true →
          BlockChain.ProofOfWork lastProof ex ≤ q :=
  ⟨Nat.find_spec ex, fun q hq => Nat.find_min' ex hq⟩

/-- Claim C2 witness: reference proof 100 admits the valid candidate 35293
(checked by computing the embedded SHA-256), so the theorem applies. -/
theorem ProofOfWork_spec_witness :
    (∃ p, BlockChain.validProof 100 p = true)
      ∧ (BlockChain.validProof 100 (BlockChain.ProofOfWork 100 ⟨35293, by decide⟩) = true
        ∧ ∀ q, BlockChain.validProof 100 q = true →
            BlockChain.ProofOfWork 100 ⟨35293, by decide⟩ ≤ q) :=
  ⟨⟨35293, by decide⟩, ProofOfWork_spec 100 ⟨35293, by decide⟩⟩

/-- Claim C1: given the decoded peer responses, `resolveConflicts` adopts a
peer chain only when its reported length strictly exceeds the running best
length (initialized to the local chain's length) and the chain passes
`validChain`; it returns `true` with the local chain replaced by an adopted
chain exactly when some peer qualified, and `false` with the local state
untouched otherwise — in particular, when every peer reports at most the
local length (so also on an exact tie) nothing is replaced. -/
theorem resolveConflicts_spec (bc : BlockChain) (rs : List FullChain) (b : Bool)
    (bc' : BlockChain) (h : bc.resolveConflicts rs = some (b, bc')) :
    (b = true → ∃ fc ∈ rs, bc' = ⟨fc.Chain, bc.CurrentTransaction, bc.Nodes⟩
        ∧ fc.Length > (bc.Chain.length : Int)
        ∧ BlockChain.validChainOpt fc.Chain = some true)
      ∧ (b = false → bc' = bc
        ∧ ∀ fc ∈ rs, ¬(fc.Length > (bc.Chain.length : Int)
            ∧ BlockChain.validChainOpt fc.Chain = some true))
      ∧ ((∀ fc ∈ rs, fc.Length ≤ (bc.Chain.length : Int)) → b = false ∧ bc' = bc) := by
  rw [BlockChain.resolveConflicts] at h
  cases hr : resolveLoop (bc.Chain.length : Int) [] rs with
  | none => rw [hr] at h; simp at h
  | some res =>
      rw [hr] at h
      obtain ⟨m', nc'⟩ := res
      dsimp only at h
      by_cases hnc : nc' = []
      · rw [if_neg (by simp [hnc])] at h
        simp only [Option.some.injEq, Prod.mk.injEq] at h
        obtain ⟨hb, hbc'⟩ := h
        subst hbc'
        rcases resolveLoop_char rs (bc.Chain.length : Int) [] (m', nc') hr with
          ⟨_, hall⟩ | ⟨fc, _, hchain, _, hvalid⟩
        · exact ⟨fun ht => absurd (hb ▸ ht) (by simp), fun _ => ⟨rfl, hall⟩,
            fun _ => ⟨hb.symm, rfl⟩⟩
        · have hfc : fc.Chain = [] := by rw [← hchain]; exact hnc
          exact absurd hfc (validChainOpt_ne_nil fc.Chain true hvalid)
      · rw [if_pos (by simp [hnc])] at h
        simp only [Option.some.injEq, Prod.mk.injEq] at h
        obtain ⟨hb, hbc'⟩ := h
        rcases resolveLoop_char rs (bc.Chain.length : Int) [] (m', nc') hr with
          ⟨hpair, _⟩ | ⟨fc, hmem, hchain, hgt, hvalid⟩
        · exact absurd (congrArg Prod.snd hpair) (by simpa using hnc)
        · refine ⟨fun _ => ⟨fc, hmem,
            by rw [← hbc', show nc' = fc.Chain from hchain], hgt, hvalid⟩,
            fun hf => absurd (hb ▸ hf) (by simp), ?_⟩
          intro hall
          exact absurd hgt (not_lt.2 (hall fc hmem))

/-- Claim C1 witness: the theorem applied to a concrete ledger and an empty
response list (no peer qualifies, so nothing is replaced). -/
theorem resolveConflicts_spec_witness :
    (BlockChain.resolveConflicts ⟨[⟨1, 0, ⟨"", "", 0⟩, 100, "1"⟩], ⟨"", "", 0⟩, []⟩ []
        = some (false, ⟨[⟨1, 0, ⟨"", "", 0⟩, 100, "1"⟩], ⟨"", "", 0⟩, []⟩))
      ∧ ((false = true → ∃ fc ∈ ([] : List FullChain),
            (⟨[⟨1, 0, ⟨"", "", 0⟩, 100, "1"⟩], ⟨"", "", 0⟩, []⟩ : BlockChain)
                = ⟨fc.Chain, ⟨"", "", 0⟩, []⟩
              ∧ fc.Length > ((⟨[⟨1, 0, ⟨"", "", 0⟩, 100, "1"⟩], ⟨"", "", 0⟩, []⟩ :
                  BlockChain).Chain.length : Int)
              ∧ BlockChain.validChainOpt fc.Chain = some true)
        ∧ (false = false → (⟨[⟨1, 0, ⟨"", "", 0⟩, 100, "1"⟩], ⟨"", "", 0⟩, []⟩ : BlockChain)
              = ⟨[⟨1, 0, ⟨"", "", 0⟩, 100, "1"⟩], ⟨"", "", 0⟩, []⟩
            ∧ ∀ fc ∈ ([] : List FullChain),
                ¬(fc.Length > ((⟨[⟨1, 0, ⟨"", "", 0⟩, 100, "1"⟩], ⟨"", "", 0⟩, []⟩ :
                    BlockChain).Chain.length : Int)
                  ∧ BlockChain.validChainOpt fc.Chain = some true))
        ∧ ((∀ fc ∈ ([] : List FullChain),
              fc.Length ≤ ((⟨[⟨1, 0, ⟨"", "", 0⟩, 100, "1"⟩], ⟨"", "", 0⟩, []⟩ :
                  BlockChain).Chain.length : Int)) →
            false = false
              ∧ (⟨[⟨1, 0, ⟨"", "", 0⟩, 100, "1"⟩], ⟨"", "", 0⟩, []⟩ : BlockChain)
                = ⟨[⟨1, 0, ⟨"", "", 0⟩, 100, "1"⟩], ⟨"", "", 0⟩, []⟩)) :=
  ⟨rfl, resolveConflicts_spec ⟨[⟨1, 0, ⟨"", "", 0⟩, 100, "1"⟩], ⟨"", "", 0⟩, []⟩ [] false
    ⟨[⟨1, 0, ⟨"", "", 0⟩, 100, "1"⟩], ⟨"", "", 0⟩, []⟩ rfl⟩

/-- Local two-block ledger used to exhibit the reported-length behaviour of
`resolveConflicts`. -/
def localBC : BlockChain :=
  ⟨[⟨1, 0, ⟨"", "", 0⟩, 100, "1"⟩, ⟨2, 0, ⟨"", "", 0⟩, 1, "x"⟩], ⟨"", "", 0⟩, []⟩

/-- A peer response whose chain has a single block but whose self-reported
length is 5. -/
def peerResp : FullChain := ⟨[⟨1, 0, ⟨"", "", 0⟩, 100, "1"⟩], 5⟩

/-- Claim C9: the consensus comparison trusts the peer's self-reported
`length` field rather than counting the received chain: a peer whose
reported length (5) exceeds the local chain's element count (2) but whose
actual valid chain has only 1 block is adopted, `resolveConflicts` returns
`true`, and the local chain shrinks from 2 blocks to 1. -/
theorem resolve_reported_length_spec :
    BlockChain.resolveConflicts localBC [peerResp]
        = some (true, ⟨peerResp.Chain, localBC.CurrentTransaction, localBC.Nodes⟩)
      ∧ peerResp.Length > (localBC.Chain.length : Int)
      ∧ BlockChain.validChainOpt peerResp.Chain = some true
      ∧ peerResp.Chain.length < localBC.Chain.length :=
  ⟨rfl, by decide, rfl, by decide⟩

/-- Claim C10: `validChain` reads element 0 of the candidate chain
unconditionally, so on the empty chain it returns no boolean (the Go code
panics); consequently a peer response carrying an empty chain together with
a reported length exceeding the local chain's length makes the whole
`resolveConflicts` run abort. -/
theorem resolve_empty_peer_aborts (bc : BlockChain) (rest : List FullChain) (L : Int)
    (h : (bc.Chain.length : Int) < L) :
    BlockChain.validChainOpt [] = none
      ∧ bc.resolveConflicts (⟨[], L⟩ :: rest) = none := by
  refine ⟨rfl, ?_⟩
  rw [BlockChain.resolveConflicts, resolveLoop,
    if_pos (show (⟨[], L⟩ : FullChain).Length > (bc.Chain.length : Int) from h)]
  rfl

/-- Claim C10 witness: a genesis-only local ledger against a peer reporting
length 5 with an empty chain. -/
theorem resolve_empty_peer_aborts_witness :
    (((⟨[⟨1, 0, ⟨"", "", 0⟩, 100, "1"⟩], ⟨"", "", 0⟩, []⟩ :
          BlockChain).Chain.length : Int) < 5)
      ∧ (BlockChain.validChainOpt [] = none
        ∧ BlockChain.resolveConflicts ⟨[⟨1, 0, ⟨"", "", 0⟩, 100, "1"⟩], ⟨"", "", 0⟩, []⟩
            (⟨[], 5⟩ :: []) = none) :=
  ⟨by decide, resolve_empty_peer_aborts ⟨[⟨1, 0, ⟨"", "", 0⟩, 100, "1"⟩], ⟨"", "", 0⟩, []⟩
    [] 5 (by decide)⟩

/-- The `validChain` verdict on a ledger state's chain. -/
def chainCheck (bc : BlockChain) : Option Bool := BlockChain.validChainOpt bc.Chain

/-- Claim C4 (amended to `NewBlock` calls that pass the empty explicit
previous hash, as the mining handler does): every chain obtained from a
freshly initialized ledger by such append operations, interleaved with any
`NewTransaction` calls, passes `validChain`. -/
theorem hashLink_invariant (t0 : Int) (ops : List LedgerOp) (bc : BlockChain)
    (hops : ∀ op ∈ ops, derivesPrevHash op)
    (h : applyOps (initLedger t0) ops = some bc) :
    BlockChain.validChainOpt bc.Chain = some true :=
  (goodChain_applyOps ops (initLedger t0) (goodChain_init t0) hops bc h).2

/-- Claim C4 witness: the theorem applied to one `NewTransaction` append on
the freshly initialized ledger. -/
theorem hashLink_invariant_witness :
    (∀ op ∈ ([LedgerOp.newTransfer "a" "b" 3] : List LedgerOp), derivesPrevHash op)
      ∧ applyOps (initLedger 0) [LedgerOp.newTransfer "a" "b" 3]
          = some ⟨[⟨1, 0, ⟨"", "", 0⟩, 100, "1"⟩], ⟨"a", "b", 3⟩, []⟩
      ∧ BlockChain.validChainOpt
          (⟨[⟨1, 0, ⟨"", "", 0⟩, 100, "1"⟩], ⟨"a", "b", 3⟩, []⟩ : BlockChain).Chain
          = some true :=
  ⟨fun op hop => by rw [List.mem_singleton] at hop; subst hop; exact trivial,
   rfl,
   hashLink_invariant 0 [LedgerOp.newTransfer "a" "b" 3]
     ⟨[⟨1, 0, ⟨"", "", 0⟩, 100, "1"⟩], ⟨"a", "b", 3⟩, []⟩
     (fun op hop => by rw [List.mem_singleton] at hop; subst hop; exact trivial) rfl⟩

/-- Claim C4 counterexample: a `NewBlock` append that passes the non-empty
explicit previous hash `"x"` produces, from the freshly initialized ledger,
a two-block chain that fails `validChain` (the literal `"x"` is not the
64-character digest of the genesis block), so the invariant does not hold
for arbitrary append sequences. -/
theorem hashLink_invariant_cex :
    (applyOps (initLedger 0) [LedgerOp.newBlock "x" 0 1]).map chainCheck
      = some (some false) := by decide

